import Mathlib

/-!
Verification of the env-to-json conversion pipeline: a shallow embedding of
the parser (src/index.js), filter engine (src/filters.js), redaction engine
(src/utils.js), serializer and orchestrator (src/index.js), together with
theorems about the claims of the specification.

JavaScript objects with string keys are modelled as insertion-ordered
association lists (`Env`); `env[key] = value` is `insertEnv`, property
deletion is `eraseKey`, `Object.entries` enumeration is the list itself.
Keys of a JavaScript object are unique, so lists built by `insertEnv`
never contain duplicate keys.
-/

namespace EnvToJson

/-- An environment mapping: ordered key/value pairs, as produced by `parseEnv`. -/
abbrev Env := List (String × String)

/-- Model of the JavaScript assignment `env[key] = value`: if the key is
already present its value is updated in place, otherwise the pair is
appended at the end. -/
def insertEnv : Env → String → String → Env
  | [], k, v => [(k, v)]
  | (k₁, v₁) :: rest, k, v =>
    if k₁ == k then (k₁, v) :: rest else (k₁, v₁) :: insertEnv rest k v

/-- Model of `env[key]` / `env.hasOwnProperty(key)`: first binding wins. -/
def lookupEnv : Env → String → Option String
  | [], _ => none
  | (k₁, v₁) :: rest, k => if k₁ == k then some v₁ else lookupEnv rest k

/-- Model of the JavaScript `delete filtered[key]`. -/
def eraseKey : Env → String → Env
  | [], _ => []
  | (k₁, v₁) :: rest, k =>
    if k₁ == k then rest else (k₁, v₁) :: eraseKey rest k

/-- The keys of a mapping, in order. -/
def keysOf (env : Env) : List String := env.map Prod.fst

/-- A mapping is a faithful image of a JavaScript object when its keys are
pairwise distinct. -/
def keysNodup (env : Env) : Prop := (keysOf env).Nodup

instance (env : Env) : Decidable (keysNodup env) := by
  unfold keysNodup; infer_instance

/-- Boolean prefix test on character lists. -/
def isPrefixCh : List Char → List Char → Bool
  | [], _ => true
  | _ :: _, [] => false
  | a :: as, b :: bs => a == b && isPrefixCh as bs

/-- Boolean contiguous-substring test: does `needle` occur inside `hay`? -/
def containsSub (hay needle : List Char) : Bool :=
  match hay with
  | [] => needle.isEmpty
  | _ :: rest => isPrefixCh needle hay || containsSub rest needle

/-- Split a character list at every occurrence of the separator, like the
JavaScript `String.prototype.split` with a single-character separator
(so the empty input yields one empty field). -/
def splitListOn (sep : Char) : List Char → List (List Char)
  | [] => [[]]
  | c :: rest =>
    if c == sep then [] :: splitListOn sep rest
    else
      match splitListOn sep rest with
      | [] => [[c]]
      | l :: ls => (c :: l) :: ls

/-- Model of `content.split('\n')` in `parseEnv`. -/
def splitLines (s : String) : List String :=
  (splitListOn '\n' s.data).map String.mk

/-- Model of `line.split('#')[0]` in `parseEnv`: everything strictly before
the first `#`, the whole line when there is none. -/
def stripComment (s : String) : String :=
  String.mk (s.data.takeWhile (fun c => c != '#'))

/-- The whitespace characters removed by `String.prototype.trim` (ASCII
portion; exotic Unicode space classes are outside the model). -/
def isSpaceChar (c : Char) : Bool :=
  c == ' ' || c == '\t' || c == '\n' || c == '\r' || c == '\x0b' || c == '\x0c'

/-- Model of `String.prototype.trim`. -/
def jsTrim (s : String) : String :=
  String.mk (((s.data.dropWhile isSpaceChar).reverse.dropWhile isSpaceChar).reverse)

/-- Split a line at the first `=`, mirroring `line.indexOf('=')` followed by
the two `substring` calls; `none` when the line has no `=`. -/
def splitFirstEq : List Char → Option (List Char × List Char)
  | [] => none
  | c :: rest =>
    if c == '=' then some ([], rest)
    else (splitFirstEq rest).map (fun p => (c :: p.1, p.2))

/-- First character of a string equals `c` (model of `value.startsWith(c)`
for a one-character pattern). -/
def startsWithCh (s : String) (c : Char) : Bool :=
  match s.data with
  | [] => false
  | d :: _ => d == c

/-- Last character of a string equals `c` (model of `value.endsWith(c)` for
a one-character pattern). -/
def endsWithCh (s : String) (c : Char) : Bool :=
  match s.data.getLast? with
  | some d => d == c
  | none => false

/-- The single-quote character. -/
def sqChar : Char := Char.ofNat 39

/-- Model of the quote-stripping step of `parseEnv`: when the value starts
and ends with a double quote, or starts and ends with a single quote,
`value.slice(1, -1)` removes one character from each end. -/
def stripQuotes (v : String) : String :=
  if (startsWithCh v '"' && endsWithCh v '"') ||
     (startsWithCh v sqChar && endsWithCh v sqChar) then
    String.mk ((v.data.drop 1).dropLast)
  else v

/-- Left-to-right, non-overlapping replacement of every occurrence of `pat`
by `rep`, the semantics of `String.prototype.replace` with a global regex
of literal characters (the replacement is not rescanned). The first
argument is recursion fuel; it only needs to bound the input length, and
a match on a non-empty pattern consumes `pat.length ≥ 1` characters while
the non-matching step consumes one, so with fuel = input length the
out-of-fuel arm is never reached. -/
def replaceListF (pat rep : List Char) : Nat → List Char → List Char
  | _, [] => []
  | 0, s => s
  | fuel + 1, c :: rest =>
    if isPrefixCh pat (c :: rest) && !pat.isEmpty then
      rep ++ replaceListF pat rep fuel (rest.drop (pat.length - 1))
    else
      c :: replaceListF pat rep fuel rest

/-- `replaceListF` with enough fuel for its input. -/
def replaceList (pat rep s : List Char) : List Char :=
  replaceListF pat rep s.length s

/-- String-level wrapper for `replaceList`. -/
def jsReplaceAll (s pat rep : String) : String :=
  String.mk (replaceList pat.data rep.data s.data)

/-- Model of the escape-resolution chain of `parseEnv`: six successive
global replacements, in the source's fixed order. -/
def resolveEscapes (v : String) : String :=
  jsReplaceAll (jsReplaceAll (jsReplaceAll (jsReplaceAll (jsReplaceAll
    (jsReplaceAll v "\\n" "\n") "\\r" "\r") "\\t" "\t")
    "\\\\" "\\") "\\\"" "\"") "\\'" "'"

/-- Processing of one physical line of `parseEnv`: comment strip, trim,
skip when empty, split at the first `=`, trim key and value, strip one
layer of quotes, resolve escapes. `none` when the line yields no entry. -/
def processLine (line : String) : Option (String × String) :=
  let l := jsTrim (stripComment line)
  if l.data.isEmpty then none
  else
    match splitFirstEq l.data with
    | none => none
    | some (k, v) =>
      let key := jsTrim (String.mk k)
      let value := resolveEscapes (stripQuotes (jsTrim (String.mk v)))
      some (key, value)

/-- Model of `parseEnv` (src/index.js): split on line feeds, process each
line, and accumulate entries with last-write-wins insertion. -/
def parseEnv (content : String) : Env :=
  (splitLines content).foldl
    (fun env line =>
      match processLine line with
      | some (k, v) => insertEnv env k v
      | none => env)
    []

/-! ## Filter engine (src/filters.js) -/

/-- The filter configuration taken by `applyFilters`. The field `pfx`
models the JavaScript option named after the word "prefix"; `none` models
an absent option. -/
structure FilterOptions where
  whitelist : List String := []
  exclude : List String := []
  pfx : Option String := none
deriving DecidableEq

/-- JavaScript truthiness of an optional string: `null`/`undefined` and the
empty string are falsy. -/
def jsTruthy : Option String → Bool
  | none => false
  | some s => !s.data.isEmpty

/-- Boolean test of `key.startsWith(p)`. -/
def startsWithStr (s p : String) : Bool := isPrefixCh p.data s.data

/-- Model of `applyWhitelist`: for an empty list the input is returned;
otherwise a fresh object is filled with `filtered[key] = env[key]` for each
whitelisted key that the input has. -/
def applyWhitelist (env : Env) (whitelist : List String) : Env :=
  if whitelist.isEmpty then env
  else
    whitelist.foldl
      (fun filtered key =>
        match lookupEnv env key with
        | some v => insertEnv filtered key v
        | none => filtered)
      []

/-- Model of `applyExclude`: for an empty list the input is returned;
otherwise the object is copied and each excluded key is deleted. -/
def applyExclude (env : Env) (excl : List String) : Env :=
  if excl.isEmpty then env
  else excl.foldl (fun filtered key => eraseKey filtered key) env

/-- Model of `applyPrefix`: falsy option is a no-op, otherwise keep the
entries whose key starts with the given string, in order. -/
def applyPfx (env : Env) (p : Option String) : Env :=
  if jsTruthy p then
    env.filter (fun e => startsWithStr e.1 (p.getD ""))
  else env

/-- Model of `applyFilters`: the prefix step first, then — when the
whitelist is non-empty — the whitelist recomputed from the original `env`
argument (discarding the prefix step's result), then the exclude step on
whatever remains. -/
def applyFilters (env : Env) (options : FilterOptions) : Env :=
  let filtered := env
  let filtered := if jsTruthy options.pfx then applyPfx filtered options.pfx else filtered
  let filtered :=
    if !options.whitelist.isEmpty then applyWhitelist env options.whitelist else filtered
  let filtered :=
    if !options.exclude.isEmpty then applyExclude filtered options.exclude else filtered
  filtered

/-- The filter options object built by `convertEnv` before validation: a
field is present exactly when the corresponding option is non-empty
(respectively truthy). -/
structure RawFilterOptions where
  whitelist : Option (List String) := none
  exclude : Option (List String) := none
  pfx : Option String := none

/-- Model of `validateFilters`, returning the error list. In this typed
model the option named after the word "prefix" is always a string, so its
type-check never fails; the advisory warning is not an error. -/
def validateFilters (o : RawFilterOptions) : List String :=
  (match o.whitelist with
   | none => []
   | some wl => if wl.isEmpty then ["Whitelist cannot be empty when specified"] else []) ++
  (match o.exclude with
   | none => []
   | some ex => if ex.isEmpty then ["Exclude list cannot be empty when specified"] else [])

/-! ## Redaction engine (src/utils.js) -/

/-- ASCII lowercasing of a string, modelling the case-insensitivity of the
`i` regex flag for the ASCII terms this tool is used with. -/
def lowerStr (s : String) : String := String.mk (s.data.map Char.toLower)

/-- Does the term `t` match the string `s`, case-insensitively, anywhere?
This is the effect of `new RegExp(terms.join('|'), 'i').test(s)` on one
alternation branch when the term contains no regex metacharacters (the
reference behavior does not escape terms). -/
def termMatches (t s : String) : Bool :=
  containsSub (lowerStr s).data (lowerStr t).data

/-- Does some term of the joined alternation match the key or the value?
Values are strings, so `String(value)` is the value itself. -/
def shouldRedact (redactKeys : List String) (k v : String) : Bool :=
  redactKeys.any (fun t => termMatches t k || termMatches t v)

/-- Model of `maskSecrets`: no-op on an empty term list; otherwise every
entry whose key or value matches gets the sentinel value, all the other
entries and every key are left unchanged. -/
def maskSecrets (env : Env) (redactKeys : List String) : Env :=
  if redactKeys.isEmpty then env
  else
    env.map (fun e =>
      if shouldRedact redactKeys e.1 e.2 then (e.1, "***REDACTED***") else e)

/-! ## Example generation (src/index.js) -/

/-- Lexicographic comparison of character lists by code point, the order
used by the default `Array.prototype.sort` comparator on strings (UTF-16
code unit comparison coincides with the scalar-value order on the strings
this model represents). -/
def lexLe : List Char → List Char → Bool
  | [], _ => true
  | _ :: _, [] => false
  | a :: as, b :: bs =>
    decide (a < b) || (a == b && lexLe as bs)

/-- String-level wrapper for `lexLe`. -/
def strLe (a b : String) : Bool := lexLe a.data b.data

/-- The lexicographic sort used by `Object.keys(env).sort()`. -/
def sortStrings (keys : List String) : List String :=
  keys.insertionSort (fun a b => strLe a b = true)

/-- Model of `Array.prototype.join` with a given separator. -/
def joinWith (sep : String) : List String → String
  | [] => ""
  | [x] => x
  | x :: xs => x ++ sep ++ joinWith sep xs

/-- Model of `generateExample`: every key of the mapping, sorted ascending,
rendered as `KEY=`, joined by line feeds, with a trailing line feed. -/
def generateExample (env : Env) : String :=
  joinWith "\n" ((sortStrings (keysOf env)).map (fun key => key ++ "=")) ++ "\n"

/-! ## JSON serialization (`JSON.stringify(obj, null, 2)` on a flat
string-valued object) -/

/-- Opening curly brace character. -/
def obChar : Char := Char.ofNat 123

/-- Closing curly brace character. -/
def cbChar : Char := Char.ofNat 125

/-- Lowercase hexadecimal digit, as emitted in `\u00xx` escapes. -/
def hexDigitCh (n : Nat) : Char :=
  if n < 10 then Char.ofNat (48 + n) else Char.ofNat (87 + n)

/-- The JSON escaping of one character performed by `JSON.stringify`:
quote, backslash and the named control characters get two-character
escapes, the remaining control characters get `\u00xx`, everything else is
emitted literally. -/
def escJsonChar (c : Char) : List Char :=
  if c = '"' then ['\\', '"']
  else if c = '\\' then ['\\', '\\']
  else if c = '\x08' then ['\\', 'b']
  else if c = '\x0c' then ['\\', 'f']
  else if c = '\n' then ['\\', 'n']
  else if c = '\r' then ['\\', 'r']
  else if c = '\t' then ['\\', 't']
  else if c.toNat < 32 then
    ['\\', 'u', '0', '0', hexDigitCh (c.toNat / 16), hexDigitCh (c.toNat % 16)]
  else [c]

/-- JSON escaping of a character list. -/
def escapeJson : List Char → List Char
  | [] => []
  | c :: cs => escJsonChar c ++ escapeJson cs

/-- JSON escaping of a string. -/
def escJsonString (s : String) : String := String.mk (escapeJson s.data)

/-- One member line of the 2-space pretty printing. -/
def jsonItem (e : String × String) : String :=
  "  \"" ++ escJsonString e.1 ++ "\": \"" ++ escJsonString e.2 ++ "\""

/-- The member lines joined by `,` and a line feed. -/
def jsonMembers : Env → String
  | [] => ""
  | [e] => jsonItem e
  | e :: tl => jsonItem e ++ ",\n" ++ jsonMembers tl

/-- Model of `JSON.stringify(obj, null, 2)` for a flat string-valued
object: the empty object prints as two braces, otherwise an opening brace,
each member indented by two spaces on its own line, and a closing brace. -/
def jsonStringify (env : Env) : String :=
  match env with
  | [] => String.mk [obChar, cbChar]
  | _ =>
    String.mk [obChar] ++ "\n" ++ jsonMembers env ++ "\n" ++ String.mk [cbChar]

/-! ## JSON parsing (`JSON.parse` on the object-of-strings fragment) -/

/-- The insignificant whitespace characters of JSON. -/
def isJsonWs (c : Char) : Bool :=
  c == ' ' || c == '\t' || c == '\n' || c == '\r'

/-- Skip insignificant whitespace. -/
def skipWs (l : List Char) : List Char := l.dropWhile isJsonWs

/-- Numeric value of a hexadecimal digit character, `none` otherwise. -/
def hexVal (c : Char) : Option Nat :=
  if 48 ≤ c.toNat ∧ c.toNat ≤ 57 then some (c.toNat - 48)
  else if 97 ≤ c.toNat ∧ c.toNat ≤ 102 then some (c.toNat - 87)
  else if 65 ≤ c.toNat ∧ c.toNat ≤ 70 then some (c.toNat - 55)
  else none

/-- Parse the body of a JSON string after its opening quote, returning the
decoded characters and the input remaining after the closing quote. Raw
control characters are a syntax error; `\uXXXX` escapes outside the scalar
range are unrepresentable in this model and rejected. -/
def parseStringBody : List Char → Option (List Char × List Char)
  | [] => none
  | c :: rest =>
    if c = '"' then some ([], rest)
    else if c = '\\' then
      match rest with
      | [] => none
      | e :: rest2 =>
        if e = '"' then (parseStringBody rest2).map (fun p => ('"' :: p.1, p.2))
        else if e = '\\' then (parseStringBody rest2).map (fun p => ('\\' :: p.1, p.2))
        else if e = '/' then (parseStringBody rest2).map (fun p => ('/' :: p.1, p.2))
        else if e = 'b' then (parseStringBody rest2).map (fun p => ('\x08' :: p.1, p.2))
        else if e = 'f' then (parseStringBody rest2).map (fun p => ('\x0c' :: p.1, p.2))
        else if e = 'n' then (parseStringBody rest2).map (fun p => ('\n' :: p.1, p.2))
        else if e = 'r' then (parseStringBody rest2).map (fun p => ('\r' :: p.1, p.2))
        else if e = 't' then (parseStringBody rest2).map (fun p => ('\t' :: p.1, p.2))
        else if e = 'u' then
          match rest2 with
          | h1 :: h2 :: h3 :: h4 :: rest3 =>
            match hexVal h1, hexVal h2, hexVal h3, hexVal h4 with
            | some n1, some n2, some n3, some n4 =>
              let n := n1 * 4096 + n2 * 256 + n3 * 16 + n4
              if n.isValidChar then
                (parseStringBody rest3).map (fun p => (Char.ofNat n :: p.1, p.2))
              else none
            | _, _, _, _ => none
          | _ => none
        else none
    else if c.toNat < 32 then none
    else (parseStringBody rest).map (fun p => (c :: p.1, p.2))

/-- Parse the members of a JSON object of strings, positioned at the first
character of a member (whitespace already skipped), up to and including
the closing brace. The fuel only needs to bound the number of members;
every member consumes at least one character, so the callers pass the
input length. -/
def parseMembersF : Nat → List Char → Option (Env × List Char)
  | 0, _ => none
  | fuel + 1, cs =>
    match cs with
    | [] => none
    | c :: rest =>
      if c = '"' then
        match parseStringBody rest with
        | none => none
        | some (k, rest2) =>
          match skipWs rest2 with
          | [] => none
          | d :: rest3 =>
            if d = ':' then
              match skipWs rest3 with
              | [] => none
              | e :: rest4 =>
                if e = '"' then
                  match parseStringBody rest4 with
                  | none => none
                  | some (v, rest5) =>
                    match skipWs rest5 with
                    | [] => none
                    | f :: rest6 =>
                      if f = ',' then
                        match parseMembersF fuel (skipWs rest6) with
                        | some (mems, rest7) =>
                          some ((String.mk k, String.mk v) :: mems, rest7)
                        | none => none
                      else if f = cbChar then
                        some ([(String.mk k, String.mk v)], rest6)
                      else none
                else none
            else none
      else none

/-- Model of `JSON.parse` restricted to the object-of-strings fragment
this pipeline serializes: an object whose members are string keys mapped
to string values, with arbitrary insignificant whitespace. The resulting
object is built by successive property assignments, so a duplicated key
keeps its first position with its last value. -/
def parseJsonObj (s : String) : Option Env :=
  match skipWs s.data with
  | [] => none
  | c :: rest =>
    if c = obChar then
      match skipWs rest with
      | [] => none
      | d :: rest2 =>
        if d = cbChar then
          if (skipWs rest2).isEmpty then some [] else none
        else
          match parseMembersF s.data.length (d :: rest2) with
          | some (mems, rest3) =>
            if (skipWs rest3).isEmpty then
              some (mems.foldl (fun acc e => insertEnv acc e.1 e.2) [])
            else none
          | none => none
    else none

/-! ## Serializer and orchestrator (src/index.js) -/

/-- Model of `formatOutput`. The YAML branch calls the external `js-yaml`
dump, an excluded collaborator, passed here as the function `yamlDump`;
the other branches are the JSON pretty printing, its module-export
wrapper, and the thrown unsupported-format error, modelled as `Except`. -/
def formatOutput (obj : Env) (format : String) (yamlDump : Env → String) :
    Except String String :=
  if lowerStr format = "json" then Except.ok (jsonStringify obj)
  else if lowerStr format = "yaml" then Except.ok (yamlDump obj)
  else if lowerStr format = "js" then
    Except.ok ("module.exports = " ++ jsonStringify obj ++ ";")
  else
    Except.error ("Unsupported format: " ++ format ++
      ". Supported formats: json, yaml, js")

/-- Index of the first position where `.env` occurs followed by no line
terminator, the position matched by the regex used in `convertEnv` (its
trailing wildcard cannot cross a line terminator and must reach the end
of the string). -/
def findEnvIdx : List Char → Option Nat
  | [] => none
  | c :: rest =>
    if isPrefixCh ".env".data (c :: rest) &&
       ((c :: rest).drop 4).all (fun d => d != '\n' && d != '\r') then
      some 0
    else (findEnvIdx rest).map (fun i => i + 1)

/-- Model of `envFile.replace(/\.env.*$/, '.env.example')`: replace from
the first occurrence of `.env` that reaches the end of the string without
crossing a line terminator; when the regex does not match, the string is
returned unchanged. -/
def replaceEnvSuffix (s : String) : String :=
  match findEnvIdx s.data with
  | none => s
  | some i => String.mk (s.data.take i) ++ ".env.example"

/-- The options record taken by `convertEnv`, with the source's defaults.
The field `pfx` models the option named after the word "prefix", and
`genExample` the `generateExample` option. -/
structure ConvertOptions where
  file : String := ".env"
  format : String := "json"
  output : Option String := none
  whitelist : List String := []
  exclude : List String := []
  pfx : Option String := none
  redact : List String := []
  genExample : Bool := false

/-- The uniform result descriptor returned by `convertEnv`. -/
structure ConvertResult where
  success : Bool
  data : Option String := none
  error : Option String := none
  message : Option String := none

/-- A conversion outcome: the result descriptor together with the
`writeFile` calls performed, as (path, content) pairs in order. -/
structure ConvertOutcome where
  result : ConvertResult
  writes : List (String × String) := []

/-- The input-file resolution step of `convertEnv`: use the requested file
when it exists, fall back to `.env` when the requested file is not `.env`
and `.env` exists, and fail otherwise. -/
def resolveFile (fileExistsF : String → Bool) (file : String) : Option String :=
  if fileExistsF file then some file
  else if !(file == ".env") && fileExistsF ".env" then some ".env"
  else none

/-- Model of `convertEnv`. The file system and the YAML dumper are
excluded collaborators passed as functions: `fileExistsF` models
`fileExists`, `readF` models `readFile` (reading is total here; a read
failure lands in the same catch branch as the unsupported-format error,
producing the same shape of descriptor). Writes are recorded in the
outcome instead of performed. -/
def convertEnv (fileExistsF : String → Bool) (readF : String → String)
    (yamlDump : Env → String) (options : ConvertOptions) : ConvertOutcome :=
  let filterOptions : RawFilterOptions :=
    { whitelist := if !options.whitelist.isEmpty then some options.whitelist else none
      exclude := if !options.exclude.isEmpty then some options.exclude else none
      pfx := if jsTruthy options.pfx then options.pfx else none }
  let errors := validateFilters filterOptions
  if !errors.isEmpty then
    { result := { success := false
                  error := some ("Filter validation failed: " ++ joinWith ", " errors) } }
  else
    match resolveFile fileExistsF options.file with
    | none =>
      { result := { success := false
                    error := some ("Environment file not found: " ++ options.file) } }
    | some envFile =>
      let content := readF envFile
      let env := parseEnv content
      if options.genExample then
        let exampleContent := generateExample env
        let exampleFile := replaceEnvSuffix envFile
        { result := { success := true
                      message := some ("Generated " ++ exampleFile)
                      data := some exampleContent }
          writes := [(exampleFile, exampleContent)] }
      else
        let env2 := applyFilters env
          { whitelist := options.whitelist, exclude := options.exclude, pfx := options.pfx }
        let env3 := if !options.redact.isEmpty then maskSecrets env2 options.redact else env2
        match formatOutput env3 options.format yamlDump with
        | Except.error msg => { result := { success := false, error := some msg } }
        | Except.ok out =>
          match options.output with
          | some o =>
            { result := { success := true
                          message := some ("Output written to " ++ o)
                          data := some out }
              writes := [(o, out)] }
          | none => { result := { success := true, data := some out } }

/-- The descriptor invariant of a conversion result: on failure the error
is set and data and message are absent, on success data or message is
present. -/
def resInvariant (r : ConvertResult) : Bool :=
  if r.success then r.data.isSome || r.message.isSome
  else r.error.isSome && !r.data.isSome && !r.message.isSome

/-! ## Basic lemmas about the environment model -/

theorem lookupEnv_eq_none_iff (env : Env) (k : String) :
    lookupEnv env k = none ↔ k ∉ keysOf env := by
  induction env with
  | nil => simp [lookupEnv, keysOf]
  | cons e rest ih =>
    obtain ⟨k₁, v₁⟩ := e
    by_cases h : k₁ = k
    · subst h; simp [lookupEnv, keysOf]
    · simp only [lookupEnv, beq_iff_eq, if_neg h, keysOf, List.map_cons, List.mem_cons]
      rw [ih]
      simp [keysOf, Ne.symm h]

theorem insertEnv_fresh (acc : Env) (k v : String) (h : lookupEnv acc k = none) :
    insertEnv acc k v = acc ++ [(k, v)] := by
  induction acc with
  | nil => rfl
  | cons e rest ih =>
    obtain ⟨k₁, v₁⟩ := e
    simp only [lookupEnv, beq_iff_eq] at h
    by_cases hk : k₁ = k
    · simp [hk] at h
    · simp only [insertEnv, beq_iff_eq, if_neg hk, List.cons_append, List.cons.injEq, true_and]
      exact ih (by simpa [hk] using h)

theorem lookupEnv_append_left_none (a b : Env) (k : String)
    (h : lookupEnv a k = none) : lookupEnv (a ++ b) k = lookupEnv b k := by
  induction a with
  | nil => rfl
  | cons e rest ih =>
    obtain ⟨k₁, v₁⟩ := e
    simp only [lookupEnv, beq_iff_eq] at h ⊢
    by_cases hk : k₁ = k
    · simp [hk] at h
    · simp only [List.cons_append, lookupEnv, beq_iff_eq, if_neg hk]
      exact ih (by simpa [hk] using h)

theorem keysOf_insertEnv_of_mem (env : Env) (k v : String)
    (h : k ∈ keysOf env) : keysOf (insertEnv env k v) = keysOf env := by
  induction env with
  | nil => simp [keysOf] at h
  | cons e rest ih =>
    obtain ⟨k₁, v₁⟩ := e
    by_cases hk : k₁ = k
    · simp [insertEnv, hk, keysOf]
    · simp only [keysOf, List.map_cons, List.mem_cons] at h
      rcases h with h | h
      · exact absurd h.symm hk
      · have hr := ih (by simpa [keysOf] using h)
        simp only [keysOf] at hr
        simp [insertEnv, hk, keysOf, hr]

theorem keysOf_insertEnv_of_not_mem (env : Env) (k v : String)
    (h : k ∉ keysOf env) : keysOf (insertEnv env k v) = keysOf env ++ [k] := by
  rw [insertEnv_fresh env k v ((lookupEnv_eq_none_iff env k).2 h)]
  simp [keysOf]

theorem keysNodup_insertEnv (env : Env) (k v : String) (h : keysNodup env) :
    keysNodup (insertEnv env k v) := by
  by_cases hk : k ∈ keysOf env
  · unfold keysNodup; rw [show keysOf (insertEnv env k v) = keysOf env from
      keysOf_insertEnv_of_mem env k v hk]; exact h
  · unfold keysNodup
    rw [show keysOf (insertEnv env k v) = keysOf env ++ [k] from
      keysOf_insertEnv_of_not_mem env k v hk]
    simpa [List.nodup_append] using ⟨h, hk⟩

theorem keysNodup_filter (env : Env) (p : String × String → Bool)
    (h : keysNodup env) : keysNodup (env.filter p) := by
  show (List.map Prod.fst (env.filter p)).Nodup
  exact List.Nodup.sublist ((List.filter_sublist env).map Prod.fst) h

theorem eraseKey_eq_filter (env : Env) (k : String) (h : keysNodup env) :
    eraseKey env k = env.filter (fun e => !(e.1 == k)) := by
  induction env with
  | nil => rfl
  | cons e rest ih =>
    obtain ⟨k₁, v₁⟩ := e
    simp only [keysNodup, keysOf, List.map_cons, List.nodup_cons] at h
    by_cases hk : k₁ = k
    · subst hk
      have hrest : rest.filter (fun e => !(e.1 == k₁)) = rest := by
        apply List.filter_eq_self.2
        intro e he
        simp only [Bool.not_eq_true', beq_eq_false_iff_ne, ne_eq]
        intro hek
        exact h.1 (by simpa [hek] using List.mem_map_of_mem Prod.fst he)
      simp [eraseKey, List.filter_cons, hrest]
    · have hne : (!(k₁ == k)) = true := by simp [hk]
      simp [eraseKey, hk, List.filter_cons, hne, ih h.2]

theorem foldl_eraseKey_eq_filter (excl : List String) (env : Env)
    (h : keysNodup env) :
    excl.foldl (fun filtered key => eraseKey filtered key) env =
      env.filter (fun e => !excl.contains e.1) := by
  induction excl generalizing env with
  | nil => simp
  | cons k ks ih =>
    simp only [List.foldl_cons]
    rw [eraseKey_eq_filter env k h,
      ih (env.filter (fun e => !(e.1 == k))) (keysNodup_filter env _ h),
      List.filter_filter]
    apply List.filter_congr
    intro e _
    by_cases hek : e.1 = k <;> simp [hek]

theorem applyExclude_eq_filter (env : Env) (excl : List String)
    (h : keysNodup env) :
    applyExclude env excl = env.filter (fun e => !excl.contains e.1) := by
  unfold applyExclude
  by_cases he : excl.isEmpty
  · rw [if_pos he]
    rw [List.isEmpty_iff] at he
    subst he
    simp
  · rw [if_neg he]
    exact foldl_eraseKey_eq_filter excl env h

theorem lookupEnv_eraseKey_none (env : Env) (j k : String)
    (h : lookupEnv env k = none) : lookupEnv (eraseKey env j) k = none := by
  induction env with
  | nil => rfl
  | cons e rest ih =>
    obtain ⟨k₁, v₁⟩ := e
    simp only [lookupEnv, beq_iff_eq] at h
    by_cases hk : k₁ = k
    · simp [hk] at h
    · have h2 := by simpa [hk] using h
      simp only [eraseKey, beq_iff_eq]
      by_cases hj : k₁ = j
      · simpa [hj] using h2
      · simp only [if_neg hj, lookupEnv, beq_iff_eq, if_neg hk]
        exact ih h2

theorem lookupEnv_eraseKey_self (env : Env) (k : String) (h : keysNodup env) :
    lookupEnv (eraseKey env k) k = none := by
  rw [eraseKey_eq_filter env k h, lookupEnv_eq_none_iff]
  intro hmem
  simp only [keysOf, List.mem_map] at hmem
  obtain ⟨e, he, hek⟩ := hmem
  rw [List.mem_filter] at he
  simp [hek] at he

theorem lookupEnv_foldl_eraseKey_none (excl : List String) (env : Env)
    (k : String) (h : lookupEnv env k = none) :
    lookupEnv (excl.foldl (fun filtered key => eraseKey filtered key) env) k = none := by
  induction excl generalizing env with
  | nil => exact h
  | cons j js ih =>
    simp only [List.foldl_cons]
    exact ih (eraseKey env j) (lookupEnv_eraseKey_none env j k h)

/-! ## Lemmas about comment stripping and line processing -/

theorem takeWhile_append_stop (p : Char → Bool) (l r : List Char) (x : Char)
    (hl : ∀ c ∈ l, p c = true) (hx : p x = false) :
    (l ++ x :: r).takeWhile p = l := by
  induction l with
  | nil => simp [List.takeWhile_cons, hx]
  | cons c cs ih =>
    have hc : p c = true := hl c (by simp)
    simp only [List.cons_append, List.takeWhile_cons, hc, if_pos]
    rw [ih (fun d hd => hl d (by simp [hd]))]

theorem takeWhile_idem (p : Char → Bool) (l : List Char) :
    (l.takeWhile p).takeWhile p = l.takeWhile p := by
  induction l with
  | nil => rfl
  | cons c cs ih =>
    by_cases hc : p c = true
    · simp [List.takeWhile_cons, hc, ih]
    · simp [List.takeWhile_cons, hc]

theorem stripComment_idem (s : String) :
    stripComment (stripComment s) = stripComment s := by
  simp [stripComment, takeWhile_idem]

theorem isSome_splitFirstEq (cs : List Char) :
    (splitFirstEq cs).isSome = true ↔ '=' ∈ cs := by
  induction cs with
  | nil => simp [splitFirstEq]
  | cons c rest ih =>
    by_cases hc : c = '='
    · simp [splitFirstEq, hc]
    · simp only [splitFirstEq, beq_iff_eq, if_neg hc]
      rw [show (Option.map (fun p => (c :: p.1, p.2)) (splitFirstEq rest)).isSome =
        (splitFirstEq rest).isSome from by cases splitFirstEq rest <;> rfl, ih]
      simp [Ne.symm hc]

/-- Claim C2 is refuted by the line `K=a\#b`: the backslash does not
protect the `#`, the comment strip still removes `#b`, so the parsed value
is `a\` and not the claim's `a\#b`. -/
theorem claim_C2_counterexample :
    stripComment "K=a\\#b" = "K=a\\" ∧ ("K=a\\" : String) ≠ "K=a\\#b" ∧
    parseEnv "K=a\\#b" = [("K", "a\\")] ∧ ("a\\" : String) ≠ "a\\#b" := by
  refine ⟨by decide, by decide, by decide, by decide⟩

/-- Claim C2 as amended: for every input line, parse strips everything
from the first `#` character onward before any further processing,
unconditionally — a `#` preceded by a backslash starts a comment just the
same, as does a `#` inside a quoted value. -/
theorem claim_C2 :
    (∀ s t : String, '#' ∉ s.data →
      stripComment (s ++ String.singleton '#' ++ t) = s) ∧
    (∀ line : String, processLine line = processLine (stripComment line)) ∧
    stripComment "K=a\\#b" = "K=a\\" ∧
    parseEnv "K=\"a#b\"" = [("K", "\"a")] := by
  refine ⟨?_, ?_, by decide, by decide⟩
  · intro s t h
    have hdata : (s ++ String.singleton '#' ++ t).data = s.data ++ '#' :: t.data := by
      simp [String.data_append, String.singleton]
    show String.mk ((s ++ String.singleton '#' ++ t).data.takeWhile (fun c => c != '#')) = s
    rw [hdata, takeWhile_append_stop (fun c => c != '#') s.data t.data '#'
      (fun c hc => by
        simp only [bne_iff_ne, ne_eq]
        intro hceq
        exact h (hceq ▸ hc)) (by decide)]
  · intro line
    simp only [processLine, stripComment_idem]

/-- Claim C2's witness instance: the amended strip equation at a concrete
prefix with no `#`. -/
theorem claim_C2_witness :
    ('#' ∉ ("K=a\\" : String).data) ∧
    stripComment ("K=a\\" ++ String.singleton '#' ++ "b") = "K=a\\" :=
  ⟨by decide, claim_C2.1 "K=a\\" "b" (by decide)⟩

/-- Claim C3 is refuted by a value holding the literal characters
backslash-backslash-n: the first replacement pass consumes the trailing
backslash-n, so the result is a backslash followed by a line feed, not the
claim's backslash followed by `n`. -/
theorem claim_C3_counterexample :
    resolveEscapes "a\\\\nb" = "a\\\nb" ∧ ("a\\\nb" : String) ≠ "a\\nb" ∧
    parseEnv "K=\"a\\\\nb\"" = [("K", "a\\\nb")] := by
  refine ⟨by decide, by decide, by decide⟩

/-- Claim C3 as amended: parse resolves escape sequences by six successive
global replacements in the source's fixed order (line feed, carriage
return, tab, backslash, double quote, single quote, each pass over the
result of the prior passes); this ordering does not protect a literal
backslash-backslash-n — the line-feed pass consumes its trailing
backslash-n, leaving a backslash followed by a real line feed — while a
single backslash-n denotes a real line feed as the claim's example says. -/
theorem claim_C3 :
    (∀ v : String, resolveEscapes v =
      jsReplaceAll (jsReplaceAll (jsReplaceAll (jsReplaceAll (jsReplaceAll
        (jsReplaceAll v "\\n" "\n") "\\r" "\r") "\\t" "\t")
        "\\\\" "\\") "\\\"" "\"") "\\'" "'") ∧
    parseEnv "K=\"a\\nb\"" = [("K", "a\nb")] ∧
    resolveEscapes "a\\\\nb" = "a\\\nb" ∧
    resolveEscapes "a\\nb" = "a\nb" := by
  refine ⟨fun v => rfl, by decide, by decide, by decide⟩

/-- Claim C4: an input line produces an entry exactly when, after comment
stripping and trimming, it is non-empty and contains an `=`; comment-only,
blank and `=`-free lines produce none, and `KEY=` produces the entry with
the empty value. Totality of `parseEnv` is intrinsic to the model: it is a
structurally recursive function defined on all strings. -/
theorem claim_C4 :
    (∀ line : String, (processLine line).isSome = true ↔
      ((jsTrim (stripComment line)).data ≠ [] ∧
        '=' ∈ (jsTrim (stripComment line)).data)) ∧
    processLine "# only a comment" = none ∧
    processLine "   " = none ∧
    processLine "NO EQUALS SIGN" = none ∧
    processLine "KEY=" = some ("KEY", "") ∧
    parseEnv "KEY=" = [("KEY", "")] := by
  refine ⟨?_, by decide, by decide, by decide, by decide, by decide⟩
  intro line
  by_cases he : (jsTrim (stripComment line)).data.isEmpty
  · rw [List.isEmpty_iff] at he
    simp [processLine, he]
  · have hne : (jsTrim (stripComment line)).data ≠ [] := by
      intro hcon
      exact he (by simp [hcon])
    simp only [processLine, if_neg he]
    cases hsp : splitFirstEq (jsTrim (stripComment line)).data with
    | none =>
      have := (isSome_splitFirstEq (jsTrim (stripComment line)).data).symm
      rw [hsp] at this
      simp only [Option.isSome_none, Bool.false_eq_true, false_iff] at this
      simp [this, hne]
    | some p =>
      obtain ⟨k, v⟩ := p
      have := (isSome_splitFirstEq (jsTrim (stripComment line)).data)
      rw [hsp] at this
      simp only [Option.isSome_some, true_iff] at this
      simp [this, hne]

/-- Claim C5: with a non-empty term list, `maskSecrets` replaces the value
of exactly the entries whose key or value some term matches
(case-insensitive substring) by the sentinel, leaves every other entry
unchanged, never alters any key, and is the identity on the empty term
list (for the empty list the condition is vacuously false, so the
pointwise description below covers both cases). -/
theorem claim_C5 :
    ∀ (env : Env) (terms : List String) (i : Nat),
    maskSecrets env [] = env ∧
    (maskSecrets env terms).map Prod.fst = env.map Prod.fst ∧
    (maskSecrets env terms)[i]? = (env[i]?).map
      (fun e => if shouldRedact terms e.1 e.2 then (e.1, "***REDACTED***") else e) ∧
    maskSecrets [("DB_PASSWORD", "x")] ["password"] =
      [("DB_PASSWORD", "***REDACTED***")] := by
  intro env terms i
  refine ⟨by simp [maskSecrets], ?_, ?_, by decide⟩
  · by_cases ht : terms.isEmpty
    · rw [List.isEmpty_iff] at ht
      subst ht
      simp [maskSecrets]
    · simp only [maskSecrets, if_neg ht, List.map_map]
      apply List.map_congr_left
      intro e _
      by_cases h : shouldRedact terms e.1 e.2 = true <;> simp [Function.comp, h]
  · by_cases ht : terms.isEmpty
    · rw [List.isEmpty_iff] at ht
      subst ht
      simp only [maskSecrets, List.isEmpty_nil, if_pos]
      cases henv : env[i]? with
      | none => simp
      | some e => simp [shouldRedact]
    · simp only [maskSecrets, if_neg ht, List.getElem?_map]

/-! ## Lemmas about the filter engine -/

theorem applyWhitelist_foldl (env : Env) (wl : List String) (acc : Env)
    (hacc : ∀ k ∈ wl, lookupEnv acc k = none) (hnd : wl.Nodup) :
    wl.foldl
      (fun filtered key =>
        match lookupEnv env key with
        | some v => insertEnv filtered key v
        | none => filtered) acc =
    acc ++ wl.filterMap (fun k => (lookupEnv env k).map (fun v => (k, v))) := by
  induction wl generalizing acc with
  | nil => simp
  | cons w ws ih =>
    have hfresh := hacc w (by simp)
    cases hw : lookupEnv env w with
    | none =>
      simp only [List.foldl_cons, List.filterMap_cons, hw, Option.map_none']
      exact ih acc (fun k hk => hacc k (by simp [hk])) hnd.of_cons
    | some v =>
      simp only [List.foldl_cons, List.filterMap_cons, hw, Option.map_some']
      rw [ih (insertEnv acc w v) ?_ hnd.of_cons, insertEnv_fresh acc w v hfresh]
      · simp
      · intro k hk
        have hkw : w ≠ k := fun hcon => (List.nodup_cons.1 hnd).1 (hcon ▸ hk)
        rw [insertEnv_fresh acc w v hfresh,
          lookupEnv_append_left_none acc [(w, v)] k (hacc k (by simp [hk]))]
        simp [lookupEnv, hkw]

theorem applyWhitelist_eq_filterMap (env : Env) (w : String) (ws : List String)
    (hnd : (w :: ws).Nodup) :
    applyWhitelist env (w :: ws) =
      (w :: ws).filterMap (fun k => (lookupEnv env k).map (fun v => (k, v))) := by
  unfold applyWhitelist
  rw [if_neg (by simp)]
  rw [applyWhitelist_foldl env (w :: ws) [] (fun k _ => rfl) hnd]
  simp

theorem keysNodup_foldl_insert (env : Env) (wl : List String) (acc : Env)
    (h : keysNodup acc) :
    keysNodup (wl.foldl
      (fun filtered key =>
        match lookupEnv env key with
        | some v => insertEnv filtered key v
        | none => filtered) acc) := by
  induction wl generalizing acc with
  | nil => exact h
  | cons w ws ih =>
    simp only [List.foldl_cons]
    cases hw : lookupEnv env w with
    | none => exact ih acc h
    | some v => exact ih (insertEnv acc w v) (keysNodup_insertEnv acc w v h)

theorem keysNodup_applyWhitelist (env : Env) (w : String) (ws : List String) :
    keysNodup (applyWhitelist env (w :: ws)) := by
  unfold applyWhitelist
  rw [if_neg (by simp)]
  exact keysNodup_foldl_insert env (w :: ws) [] (by simp [keysNodup, keysOf])

theorem lookup_applyExclude_head (w : Env) (k : String) (excl : List String)
    (h : keysNodup w) :
    lookupEnv (applyExclude w (k :: excl)) k = none := by
  unfold applyExclude
  rw [if_neg (by simp)]
  simp only [List.foldl_cons]
  exact lookupEnv_foldl_eraseKey_none excl _ k (lookupEnv_eraseKey_self w k h)

/-- Claim C1: `applyFilters` composes the three filters in the fixed order
prefix, whitelist, exclude; a non-empty whitelist is recomputed from the
original mapping, so it is authoritative over the prefix option; a
non-empty exclude applies last to the result of the earlier steps and can
remove whitelisted or prefix-matched keys. -/
theorem claim_C1 :
    (∀ (env : Env) (wl : List String) (k : String) (excl : List String)
        (p : Option String),
      applyFilters env ⟨wl, k :: excl, p⟩ =
        applyExclude (applyFilters env ⟨wl, [], p⟩) (k :: excl)) ∧
    (∀ (env : Env) (w : String) (ws excl : List String) (p q : Option String),
      applyFilters env ⟨w :: ws, excl, p⟩ = applyFilters env ⟨w :: ws, excl, q⟩) ∧
    (∀ (env : Env) (w : String) (ws : List String) (p : Option String),
      applyFilters env ⟨w :: ws, [], p⟩ = applyWhitelist env (w :: ws)) ∧
    applyFilters [("A", "1"), ("B", "2")] ⟨["B"], [], some "A"⟩ = [("B", "2")] ∧
    (∀ (env : Env) (wl : List String) (k : String) (excl : List String)
        (p : Option String), keysNodup env →
      lookupEnv (applyFilters env ⟨wl, k :: excl, p⟩) k = none) := by
  refine ⟨?_, ?_, ?_, by decide, ?_⟩
  · intro env wl k excl p
    simp [applyFilters]
  · intro env w ws excl p q
    simp [applyFilters]
  · intro env w ws p
    simp [applyFilters]
  · intro env wl k excl p hnd
    have hmid : ∀ w : Env, keysNodup w →
        lookupEnv (applyExclude w (k :: excl)) k = none :=
      fun w hw => lookup_applyExclude_head w k excl hw
    cases wl with
    | nil =>
      by_cases hp : jsTruthy p
      · simpa [applyFilters, hp, applyPfx] using
          hmid (env.filter fun e => startsWithStr e.1 (p.getD ""))
            (keysNodup_filter env _ hnd)
      · simpa [applyFilters, hp] using hmid env hnd
    | cons w ws =>
      by_cases hp : jsTruthy p
      · simpa [applyFilters, hp] using
          hmid (applyWhitelist env (w :: ws)) (keysNodup_applyWhitelist env w ws)
      · simpa [applyFilters, hp] using
          hmid (applyWhitelist env (w :: ws)) (keysNodup_applyWhitelist env w ws)

/-- Claim C1's witness instance: a key-distinct mapping on which the
exclude step removes a whitelisted key. -/
theorem claim_C1_witness :
    keysNodup [("A", "1"), ("B", "2")] ∧
    lookupEnv (applyFilters [("A", "1"), ("B", "2")] ⟨["A", "B"], ["B"], none⟩)
      "B" = none :=
  ⟨by decide, claim_C1.2.2.2.2 [("A", "1"), ("B", "2")] ["A", "B"] "B" [] none
    (by decide)⟩

/-- Claim C10: with a non-empty whitelist the surviving entries are listed
in the order of the whitelist argument (skipping absent keys, with the
exclude filter applied on top); with no whitelist the surviving entries
keep the mapping's original relative order, being a `List.filter` of it. -/
theorem claim_C10 :
    (∀ (env : Env) (w : String) (ws excl : List String) (p : Option String),
      (w :: ws).Nodup →
      applyFilters env ⟨w :: ws, excl, p⟩ =
        ((w :: ws).filterMap
          (fun k => (lookupEnv env k).map (fun v => (k, v)))).filter
          (fun e => !excl.contains e.1)) ∧
    (∀ (env : Env) (excl : List String) (p : Option String), keysNodup env →
      applyFilters env ⟨[], excl, p⟩ =
        env.filter (fun e =>
          (if jsTruthy p then startsWithStr e.1 (p.getD "") else true) &&
          !excl.contains e.1)) := by
  constructor
  · intro env w ws excl p hnd
    have hW := applyWhitelist_eq_filterMap env w ws hnd
    have hNod := keysNodup_applyWhitelist env w ws
    by_cases hex : excl.isEmpty
    · rw [List.isEmpty_iff] at hex
      subst hex
      have h1 : applyFilters env ⟨w :: ws, [], p⟩ = applyWhitelist env (w :: ws) := by
        simp [applyFilters]
      rw [h1, hW, List.filter_eq_self.2 (fun e _ => by simp)]
    · have h1 : applyFilters env ⟨w :: ws, excl, p⟩ =
          applyExclude (applyWhitelist env (w :: ws)) excl := by
        simp [applyFilters, hex]
      rw [h1, applyExclude_eq_filter _ excl hNod, hW]
  · intro env excl p hnd
    have hstep : applyFilters env ⟨[], excl, p⟩ =
        (if excl.isEmpty then (if jsTruthy p then applyPfx env p else env)
         else applyExclude (if jsTruthy p then applyPfx env p else env) excl) := by
      by_cases hex : excl.isEmpty <;> by_cases hp : jsTruthy p <;>
        simp [applyFilters, hex, hp]
    rw [hstep]
    by_cases hp : jsTruthy p
    · have hpfx : applyPfx env p =
          env.filter (fun e => startsWithStr e.1 (p.getD "")) := by
        simp [applyPfx, hp]
      by_cases hex : excl.isEmpty
      · rw [List.isEmpty_iff] at hex
        subst hex
        rw [if_pos (by simp), if_pos hp, hpfx]
        apply List.filter_congr
        intro e _
        simp [hp]
      · rw [if_neg hex, if_pos hp, hpfx,
          applyExclude_eq_filter _ excl (keysNodup_filter env _ hnd),
          List.filter_filter]
        apply List.filter_congr
        intro e _
        simp [hp, Bool.and_comm]
    · by_cases hex : excl.isEmpty
      · rw [List.isEmpty_iff] at hex
        subst hex
        rw [if_pos (by simp), if_neg hp,
          List.filter_eq_self.2 (fun e _ => by simp [hp])]
      · rw [if_neg hex, if_neg hp, applyExclude_eq_filter _ excl hnd]
        apply List.filter_congr
        intro e _
        simp [hp]

/-- Claim C10's witness instance: whitelist order `B` before `A` reverses
the original insertion order, and an exclude-only filter preserves it. -/
theorem claim_C10_witness :
    ((["B", "A"] : List String).Nodup ∧
      applyFilters [("A", "1"), ("B", "2")] ⟨["B", "A"], ["A"], none⟩ =
        ((["B", "A"] : List String).filterMap
          (fun k => (lookupEnv [("A", "1"), ("B", "2")] k).map
            (fun v => (k, v)))).filter
          (fun e => !(["A"] : List String).contains e.1)) ∧
    (keysNodup [("A", "1"), ("B", "2")] ∧
      applyFilters [("A", "1"), ("B", "2")] ⟨[], ["A"], some "B"⟩ =
        ([("A", "1"), ("B", "2")] : Env).filter (fun e =>
          (if jsTruthy (some "B") then startsWithStr e.1 ((some "B").getD "")
            else true) &&
          !(["A"] : List String).contains e.1)) :=
  ⟨⟨by decide, claim_C10.1 [("A", "1"), ("B", "2")] "B" ["A"] ["A"] none
      (by decide)⟩,
    ⟨by decide, claim_C10.2 [("A", "1"), ("B", "2")] ["A"] (some "B")
      (by decide)⟩⟩

/-! ## Lemmas about the key sort -/

theorem lexLe_total : ∀ as bs : List Char, lexLe as bs = true ∨ lexLe bs as = true
  | [], _ => Or.inl rfl
  | _ :: _, [] => Or.inr rfl
  | a :: as, b :: bs => by
    rcases lt_trichotomy a b with h | h | h
    · left
      simp [lexLe, h]
    · subst h
      rcases lexLe_total as bs with h | h
      · left
        simp [lexLe, h]
      · right
        simp [lexLe, h]
    · right
      simp [lexLe, h]

theorem lexLe_trans : ∀ as bs cs : List Char,
    lexLe as bs = true → lexLe bs cs = true → lexLe as cs = true
  | [], _, _, _, _ => rfl
  | _ :: _, [], _, h1, _ => by simp [lexLe] at h1
  | _ :: _, _ :: _, [], _, h2 => by simp [lexLe] at h2
  | a :: as, b :: bs, c :: cs, h1, h2 => by
    simp only [lexLe, Bool.or_eq_true, Bool.and_eq_true, decide_eq_true_eq,
      beq_iff_eq] at h1 h2 ⊢
    rcases h1 with h1 | ⟨hab, h1⟩
    · rcases h2 with h2 | ⟨hbc, h2⟩
      · exact Or.inl (lt_trans h1 h2)
      · exact Or.inl (hbc ▸ h1)
    · rcases h2 with h2 | ⟨hbc, h2⟩
      · subst hab
        exact Or.inl h2
      · exact Or.inr ⟨hab.trans hbc, lexLe_trans as bs cs h1 h2⟩

instance : IsTotal String (fun a b => strLe a b = true) :=
  ⟨fun a b => lexLe_total a.data b.data⟩

instance : IsTrans String (fun a b => strLe a b = true) :=
  ⟨fun a b c => lexLe_trans a.data b.data c.data⟩

theorem sortStrings_sorted (keys : List String) :
    List.Sorted (fun a b => strLe a b = true) (sortStrings keys) :=
  List.sorted_insertionSort (fun a b => strLe a b = true) keys

theorem sortStrings_perm (keys : List String) :
    List.Perm (sortStrings keys) keys :=
  List.perm_insertionSort (fun a b => strLe a b = true) keys

/-! ## Lemmas about the orchestrator -/

theorem validateFilters_built (wl excl : List String) (p : Option String) :
    validateFilters
      { whitelist := if !wl.isEmpty then some wl else none
        exclude := if !excl.isEmpty then some excl else none
        pfx := if jsTruthy p then p else none } = [] := by
  by_cases hw : wl.isEmpty <;>
    by_cases he : excl.isEmpty <;>
      simp [validateFilters, hw, he]

/-- Claim C8: every result descriptor produced by `convertEnv` satisfies
the invariant — on failure the error is set and data and message absent,
on success data or message present — for every option record, file-system
behavior and YAML dumper. -/
theorem claim_C8 (fileExistsF : String → Bool) (readF : String → String)
    (yamlDump : Env → String) (options : ConvertOptions) :
    resInvariant (convertEnv fileExistsF readF yamlDump options).result = true := by
  simp only [convertEnv]
  repeat' split <;> try rfl

/-- Claim C6: when example generation is requested and the input file
exists, `convertEnv` succeeds with the example document as data — every
key of the parsed mapping sorted ascending, rendered `KEY=`, one per line
with a trailing line feed — and the whitelist, exclude, prefix, redact,
format and output options have no effect on that content (they are
universally quantified here and absent from the result). -/
theorem claim_C6 :
    (∀ (fileExistsF : String → Bool) (readF : String → String)
        (yamlDump : Env → String) (file fmt : String) (out : Option String)
        (wl excl redact : List String) (p : Option String),
      fileExistsF file = true →
      (convertEnv fileExistsF readF yamlDump
        ⟨file, fmt, out, wl, excl, p, redact, true⟩).result =
        { success := true
          data := some (generateExample (parseEnv (readF file)))
          message := some ("Generated " ++ replaceEnvSuffix file) }) ∧
    generateExample [("B", "1"), ("A", "2")] = "A=\nB=\n" ∧
    (∀ env : Env,
      List.Sorted (fun a b => strLe a b = true) (sortStrings (keysOf env))) ∧
    (∀ env : Env, List.Perm (sortStrings (keysOf env)) (keysOf env)) := by
  refine ⟨?_, by decide, fun env => sortStrings_sorted _,
    fun env => sortStrings_perm _⟩
  intro exF rdF yD file fmt out wl excl redact p hex
  have hres : resolveFile exF file = some file := by simp [resolveFile, hex]
  simp only [convertEnv, validateFilters_built, hres, List.isEmpty_nil,
    Bool.not_true]
  rfl

/-- Claim C6's witness instance: a concrete conversion with every filter
and redaction option set, whose example data ignores them all. -/
theorem claim_C6_witness :
    ((fun _ : String => true) "x.env" = true) ∧
    (convertEnv (fun _ => true) (fun _ => "B=1\nA=2") (fun _ => "")
      ⟨"x.env", "yaml", some "out.txt", ["Z"], ["A"], some "Q", ["secret"],
        true⟩).result =
      { success := true
        data := some (generateExample (parseEnv
          ((fun _ : String => "B=1\nA=2") "x.env")))
        message := some ("Generated " ++ replaceEnvSuffix "x.env") } :=
  ⟨rfl, claim_C6.1 (fun _ => true) (fun _ => "B=1\nA=2") (fun _ => "")
    "x.env" "yaml" (some "out.txt") ["Z"] ["A"] ["secret"] (some "Q") rfl⟩

/-! ## Lemmas about example-path derivation -/

theorem findEnvIdx_spec : ∀ (l : List Char) (i : Nat), findEnvIdx l = some i →
    isPrefixCh ".env".data (l.drop i) = true ∧
    (l.drop (i + 4)).all (fun d => d != '\n' && d != '\r') = true ∧
    ∀ j < i, ¬(isPrefixCh ".env".data (l.drop j) = true ∧
        (l.drop (j + 4)).all (fun d => d != '\n' && d != '\r') = true) := by
  intro l
  induction l with
  | nil => intro i h; simp [findEnvIdx] at h
  | cons c rest ih =>
    intro i h
    by_cases hcond : (isPrefixCh ".env".data (c :: rest) &&
        ((c :: rest).drop 4).all (fun d => d != '\n' && d != '\r')) = true
    · rw [findEnvIdx, if_pos hcond] at h
      obtain rfl : i = 0 := by simpa using h.symm
      rw [Bool.and_eq_true] at hcond
      exact ⟨by simpa using hcond.1, by simpa using hcond.2,
        fun j hj => absurd hj (Nat.not_lt_zero j)⟩
    · rw [findEnvIdx, if_neg hcond] at h
      cases hr : findEnvIdx rest with
      | none => rw [hr] at h; simp at h
      | some i0 =>
        rw [hr] at h
        simp only [Option.map_some', Option.some.injEq] at h
        obtain rfl : i = i0 + 1 := h.symm
        obtain ⟨p1, p2, p3⟩ := ih i0 hr
        refine ⟨by simpa [List.drop_succ_cons] using p1, ?_, ?_⟩
        · have harith : i0 + 1 + 4 = (i0 + 4) + 1 := by omega
          rw [harith, List.drop_succ_cons]
          exact p2
        · intro j hj
          cases j with
          | zero =>
            intro hc
            apply hcond
            rw [Bool.and_eq_true]
            exact ⟨by simpa using hc.1, by simpa using hc.2⟩
          | succ j0 =>
            intro hc
            apply p3 j0 (by omega)
            have harith : j0 + 1 + 4 = (j0 + 4) + 1 := by omega
            rw [List.drop_succ_cons] at hc
            rw [harith, List.drop_succ_cons] at hc
            exact hc

theorem findEnvIdx_none_of_not_contains (l : List Char)
    (h : containsSub l ".env".data = false) : findEnvIdx l = none := by
  induction l with
  | nil => rfl
  | cons c rest ih =>
    rw [containsSub, Bool.or_eq_false_iff] at h
    rw [findEnvIdx, if_neg (by simp [h.1]), ih h.2]
    rfl

theorem replaceEnvSuffix_id (s : String)
    (h : containsSub s.data ".env".data = false) : replaceEnvSuffix s = s := by
  unfold replaceEnvSuffix
  rw [findEnvIdx_none_of_not_contains s.data h]

/-- Claim C9 is refuted by filenames with a line terminator after `.env`:
the regex wildcard cannot cross a line feed, so the first occurrence of
`.env` in `a.env\nb` is not replaced at all, and in `a.env\nb.env` the
replacement happens at the second occurrence, not the first. -/
theorem claim_C9_counterexample :
    containsSub ("a.env\nb" : String).data ".env".data = true ∧
    replaceEnvSuffix "a.env\nb" = "a.env\nb" ∧
    ("a.env\nb" : String) ≠ "a.env.example" ∧
    replaceEnvSuffix "a.env\nb.env" = "a.env\nb.env.example" ∧
    ("a.env\nb.env.example" : String) ≠ "a.env.example" := by
  refine ⟨by decide, by decide, by decide, by decide, by decide⟩

/-- Claim C9 as amended: the example path is derived by replacing the
first occurrence of `.env` that is followed by no line terminator (the
regex wildcard cannot cross one), and everything after it, with
`.env.example`; when no such occurrence exists — in particular for every
filename that contains no `.env` at all — the derived path equals the
input path, so the generated example content is written over the input
file. -/
theorem claim_C9 :
    (∀ s : String, containsSub s.data ".env".data = false →
      replaceEnvSuffix s = s) ∧
    (∀ (s : String) (i : Nat), findEnvIdx s.data = some i →
      replaceEnvSuffix s = String.mk (s.data.take i) ++ ".env.example" ∧
      isPrefixCh ".env".data (s.data.drop i) = true ∧
      (s.data.drop (i + 4)).all (fun d => d != '\n' && d != '\r') = true ∧
      ∀ j < i, ¬(isPrefixCh ".env".data (s.data.drop j) = true ∧
          (s.data.drop (j + 4)).all (fun d => d != '\n' && d != '\r') = true)) ∧
    replaceEnvSuffix "config.env.local" = "config.env.example" ∧
    replaceEnvSuffix "config.txt" = "config.txt" ∧
    (∀ (fileExistsF : String → Bool) (readF : String → String)
        (yamlDump : Env → String) (file fmt : String) (out : Option String)
        (wl excl redact : List String) (p : Option String),
      fileExistsF file = true → containsSub file.data ".env".data = false →
      (convertEnv fileExistsF readF yamlDump
        ⟨file, fmt, out, wl, excl, p, redact, true⟩).writes =
        [(file, generateExample (parseEnv (readF file)))]) := by
  refine ⟨fun s h => replaceEnvSuffix_id s h, ?_, by decide, by decide, ?_⟩
  · intro s i h
    obtain ⟨p1, p2, p3⟩ := findEnvIdx_spec s.data i h
    refine ⟨?_, p1, p2, p3⟩
    unfold replaceEnvSuffix
    rw [h]
  · intro exF rdF yD file fmt out wl excl redact p hex hnc
    have hres : resolveFile exF file = some file := by simp [resolveFile, hex]
    simp only [convertEnv, validateFilters_built, hres, List.isEmpty_nil,
      Bool.not_true]
    rw [replaceEnvSuffix_id file hnc]
    rfl

/-- Claim C9's witness instance: a found occurrence with its first-match
properties, and a `.env`-free filename whose example write goes to the
input path itself. -/
theorem claim_C9_witness :
    (findEnvIdx ("ab.envy" : String).data = some 2 ∧
      replaceEnvSuffix "ab.envy" =
        String.mk (("ab.envy" : String).data.take 2) ++ ".env.example") ∧
    (containsSub ("config.txt" : String).data ".env".data = false ∧
      (convertEnv (fun _ => true) (fun _ => "A=1") (fun _ => "")
        ⟨"config.txt", "json", none, [], [], none, [], true⟩).writes =
        [("config.txt", generateExample (parseEnv
          ((fun _ : String => "A=1") "config.txt")))]) :=
  ⟨⟨by decide, (claim_C9.2.1 "ab.envy" 2 (by decide)).1⟩,
    ⟨by decide, claim_C9.2.2.2.2 (fun _ => true) (fun _ => "A=1") (fun _ => "")
      "config.txt" "json" none [] [] [] none rfl (by decide)⟩⟩

/-! ## Lemmas about JSON string escaping -/

theorem hexVal_hexDigitCh (n : Nat) (h : n < 16) : hexVal (hexDigitCh n) = some n := by
  interval_cases n <;> decide

theorem parseStringBody_escape : ∀ (cs rest : List Char),
    parseStringBody (escapeJson cs ++ '"' :: rest) = some (cs, rest) := by
  intro cs
  induction cs with
  | nil =>
    intro rest
    rw [show escapeJson [] ++ '"' :: rest = '"' :: rest from rfl,
      parseStringBody.eq_def]
    simp
  | cons c cs ih =>
    intro rest
    by_cases h1 : c = '"'
    · subst h1
      simp only [escapeJson, List.cons_append,
        show escJsonChar '"' = ['\\', '"'] from by decide]
      rw [parseStringBody.eq_def]
      simp [ih]
    · by_cases h2 : c = '\\'
      · subst h2
        simp only [escapeJson, List.cons_append,
          show escJsonChar '\\' = ['\\', '\\'] from by decide]
        rw [parseStringBody.eq_def]
        simp [ih]
      · by_cases h3 : c = '\x08'
        · subst h3
          simp only [escapeJson, List.cons_append,
            show escJsonChar '\x08' = ['\\', 'b'] from by decide]
          rw [parseStringBody.eq_def]
          simp [ih]
        · by_cases h4 : c = '\x0c'
          · subst h4
            simp only [escapeJson, List.cons_append,
              show escJsonChar '\x0c' = ['\\', 'f'] from by decide]
            rw [parseStringBody.eq_def]
            simp [ih]
          · by_cases h5 : c = '\n'
            · subst h5
              simp only [escapeJson, List.cons_append,
                show escJsonChar '\n' = ['\\', 'n'] from by decide]
              rw [parseStringBody.eq_def]
              simp [ih]
            · by_cases h6 : c = '\r'
              · subst h6
                simp only [escapeJson, List.cons_append,
                  show escJsonChar '\r' = ['\\', 'r'] from by decide]
                rw [parseStringBody.eq_def]
                simp [ih]
              · by_cases h7 : c = '\t'
                · subst h7
                  simp only [escapeJson, List.cons_append,
                    show escJsonChar '\t' = ['\\', 't'] from by decide]
                  rw [parseStringBody.eq_def]
                  simp [ih]
                · by_cases h8 : c.toNat < 32
                  · have hesc : escJsonChar c = ['\\', 'u', '0', '0',
                        hexDigitCh (c.toNat / 16), hexDigitCh (c.toNat % 16)] := by
                      simp [escJsonChar, h1, h2, h3, h4, h5, h6, h7, h8]
                    have hdiv : c.toNat / 16 < 16 := by omega
                    have hmod : c.toNat % 16 < 16 := by omega
                    have hn2 : c.toNat / 16 * 16 + c.toNat % 16 = c.toNat := by omega
                    simp only [escapeJson, hesc, List.cons_append]
                    rw [parseStringBody.eq_def]
                    simp [hexVal_hexDigitCh _ hdiv, hexVal_hexDigitCh _ hmod,
                      show hexVal '0' = some 0 from by decide,
                      hn2, show (c.toNat).isValidChar from c.valid,
                      Char.ofNat_toNat, ih]
                  · have hesc : escJsonChar c = [c] := by
                      simp [escJsonChar, h1, h2, h3, h4, h5, h6, h7, h8]
                    simp only [escapeJson, hesc, List.cons_append, List.nil_append]
                    rw [parseStringBody.eq_def]
                    simp [h1, h2, h8, ih]

/-! ## Lemmas about JSON object parsing -/

theorem jsonItem_data (e : String × String) :
    (jsonItem e).data = [' ', ' ', '"'] ++ escapeJson e.1.data ++
      ['"', ':', ' ', '"'] ++ escapeJson e.2.data ++ ['"'] := by
  simp [jsonItem, escJsonString, String.data_append]

theorem skipWs_cons_of_pos (c : Char) (l : List Char) (h : isJsonWs c = true) :
    skipWs (c :: l) = skipWs l := by
  simp [skipWs, List.dropWhile_cons, h]

theorem skipWs_cons_of_neg (c : Char) (l : List Char) (h : isJsonWs c = false) :
    skipWs (c :: l) = c :: l := by
  simp [skipWs, List.dropWhile_cons, h]

theorem parseMembersF_render : ∀ (env : Env) (rest : List Char) (fuel : Nat),
    env ≠ [] → env.length ≤ fuel →
    parseMembersF fuel (skipWs ((jsonMembers env).data ++ '\n' :: cbChar :: rest)) =
      some (env, rest) := by
  intro env
  induction env with
  | nil => intro rest fuel hne _; exact absurd rfl hne
  | cons e tl ih =>
    intro rest fuel _ hfuel
    obtain ⟨f, rfl⟩ : ∃ f, fuel = f + 1 :=
      ⟨fuel - 1, by simp at hfuel; omega⟩
    have hw1 : ∀ l : List Char, skipWs (':' :: l) = ':' :: l :=
      fun l => skipWs_cons_of_neg ':' l (by decide)
    have hw2 : ∀ l : List Char, skipWs (' ' :: l) = skipWs l :=
      fun l => skipWs_cons_of_pos ' ' l (by decide)
    have hw3 : ∀ l : List Char, skipWs ('"' :: l) = '"' :: l :=
      fun l => skipWs_cons_of_neg '"' l (by decide)
    have hw4 : ∀ l : List Char, skipWs ('\n' :: l) = skipWs l :=
      fun l => skipWs_cons_of_pos '\n' l (by decide)
    have hw5 : ∀ l : List Char, skipWs (cbChar :: l) = cbChar :: l :=
      fun l => skipWs_cons_of_neg cbChar l (by decide)
    have hw6 : ∀ l : List Char, skipWs (',' :: l) = ',' :: l :=
      fun l => skipWs_cons_of_neg ',' l (by decide)
    cases tl with
    | nil =>
      have hdata : (jsonMembers [e]).data ++ '\n' :: cbChar :: rest =
          ' ' :: ' ' :: '"' :: (escapeJson e.1.data ++ '"' :: (':' :: ' ' :: '"' ::
            (escapeJson e.2.data ++ '"' :: '\n' :: cbChar :: rest))) := by
        simp [jsonMembers, jsonItem_data]
      rw [hdata, hw2, hw2, hw3, parseMembersF.eq_def]
      simp [parseStringBody_escape, hw1, hw2, hw3, hw4, hw5,
        show ¬(cbChar = ',') from by decide]
    | cons e2 tl2 =>
      have hdata : (jsonMembers (e :: e2 :: tl2)).data ++ '\n' :: cbChar :: rest =
          ' ' :: ' ' :: '"' :: (escapeJson e.1.data ++ '"' :: (':' :: ' ' :: '"' ::
            (escapeJson e.2.data ++ '"' :: ',' :: '\n' ::
              ((jsonMembers (e2 :: tl2)).data ++ '\n' :: cbChar :: rest)))) := by
        simp [jsonMembers, jsonItem_data, String.data_append]
      rw [hdata, hw2, hw2, hw3, parseMembersF.eq_def]
      have hrec := ih rest f (by simp) (by simpa using hfuel)
      simp [parseStringBody_escape, hw1, hw2, hw3, hw4, hw5, hw6, hrec]

theorem jsonMembers_length (env : Env) :
    env.length ≤ (jsonMembers env).data.length := by
  induction env with
  | nil => simp [jsonMembers]
  | cons e tl ih =>
    cases tl with
    | nil =>
      simp [jsonMembers, jsonItem_data]
    | cons e2 tl2 =>
      simp only [jsonMembers, String.data_append, List.length_append,
        List.length_cons, jsonItem_data] at ih ⊢
      simp at ih ⊢
      omega

theorem jsonStringify_data (env : Env) (h : env ≠ []) :
    (jsonStringify env).data =
      obChar :: '\n' :: ((jsonMembers env).data ++ ['\n', cbChar]) := by
  cases env with
  | nil => exact absurd rfl h
  | cons e tl => simp [jsonStringify, String.data_append]

theorem jsonMembers_data_head (e : String × String) (tl : Env) :
    ∃ z, (jsonMembers (e :: tl)).data = ' ' :: ' ' :: '"' :: z := by
  cases tl with
  | nil =>
    refine ⟨escapeJson e.1.data ++ ['"', ':', ' ', '"'] ++
      escapeJson e.2.data ++ ['"'], ?_⟩
    simp [jsonMembers, jsonItem_data]
  | cons e2 tl2 =>
    refine ⟨escapeJson e.1.data ++ ['"', ':', ' ', '"'] ++
      escapeJson e.2.data ++ ['"'] ++ (",\n" : String).data ++
      (jsonMembers (e2 :: tl2)).data, ?_⟩
    simp [jsonMembers, jsonItem_data, String.data_append]

theorem foldl_insertEnv (env : Env) : ∀ (acc : Env),
    (∀ e ∈ env, lookupEnv acc e.1 = none) → keysNodup env →
    env.foldl (fun acc e => insertEnv acc e.1 e.2) acc = acc ++ env := by
  induction env with
  | nil => simp
  | cons e tl ih =>
    intro acc hfresh hnd
    simp only [keysNodup, keysOf, List.map_cons, List.nodup_cons] at hnd
    simp only [List.foldl_cons]
    rw [insertEnv_fresh acc e.1 e.2 (hfresh e (by simp))]
    rw [ih (acc ++ [(e.1, e.2)]) ?_ hnd.2]
    · simp
    · intro x hx
      rw [lookupEnv_append_left_none acc _ x.1 (hfresh x (by simp [hx]))]
      have hne : e.1 ≠ x.1 := by
        intro hc
        exact hnd.1 (by rw [hc]; exact List.mem_map_of_mem Prod.fst hx)
      simp [lookupEnv, hne]

/-- Claim C7: for every string-valued mapping with pairwise-distinct keys
(as any JavaScript object has), parsing the JSON serialization back yields
the mapping itself — same keys, same order, same values. `parseJsonObj` is
an independent model of `JSON.parse` on the object-of-strings fragment,
`jsonStringify` the model of `JSON.stringify(obj, null, 2)` used by the
`json` branch of `formatOutput`. -/
theorem claim_C7 : ∀ (env : Env) (yamlDump : Env → String),
    keysNodup env →
    formatOutput env "json" yamlDump = Except.ok (jsonStringify env) ∧
    parseJsonObj (jsonStringify env) = some env := by
  intro env yD hnd
  constructor
  · rfl
  · cases env with
    | nil => decide
    | cons e tl =>
      have hne : (e :: tl) ≠ [] := by simp
      have hdata := jsonStringify_data (e :: tl) hne
      obtain ⟨z, hz⟩ := jsonMembers_data_head e tl
      have hw2 : ∀ l : List Char, skipWs (' ' :: l) = skipWs l :=
        fun l => skipWs_cons_of_pos ' ' l (by decide)
      have hw3 : ∀ l : List Char, skipWs ('"' :: l) = '"' :: l :=
        fun l => skipWs_cons_of_neg '"' l (by decide)
      have hw4 : ∀ l : List Char, skipWs ('\n' :: l) = skipWs l :=
        fun l => skipWs_cons_of_pos '\n' l (by decide)
      have hwo : ∀ l : List Char, skipWs (obChar :: l) = obChar :: l :=
        fun l => skipWs_cons_of_neg obChar l (by decide)
      have hskip : skipWs ((jsonMembers (e :: tl)).data ++ '\n' :: cbChar :: []) =
          '"' :: (z ++ '\n' :: cbChar :: []) := by
        rw [hz]
        simp only [List.cons_append, hw2, hw3]
      have hlen : (e :: tl).length ≤
          (obChar :: '\n' :: ((jsonMembers (e :: tl)).data ++ ['\n', cbChar])).length := by
        have hjm := jsonMembers_length (e :: tl)
        simp only [List.length_cons, List.length_append, List.length_nil] at hjm ⊢
        omega
      rw [show ('\n' :: cbChar :: ([] : List Char)) = ['\n', cbChar] from rfl] at hskip
      unfold parseJsonObj
      rw [hdata, hwo]
      generalize hF : (obChar :: '\n' ::
        ((jsonMembers (e :: tl)).data ++ ['\n', cbChar])).length = F
      have hrender := parseMembersF_render (e :: tl) [] F hne (hF ▸ hlen)
      rw [show ('\n' :: cbChar :: ([] : List Char)) = ['\n', cbChar] from rfl,
        hskip] at hrender
      simp only [hw4, hskip]
      simp [show ¬('"' = cbChar) from by decide, hrender, skipWs,
        foldl_insertEnv (e :: tl) [] (fun x _ => rfl) hnd]

/-- Claim C7's witness instance: a concrete mapping with quotes, a
backslash and a control character in its values survives the round trip. -/
theorem claim_C7_witness :
    keysNodup [("a", "1"), ("b", "x\"y\\z\n\x01")] ∧
    formatOutput [("a", "1"), ("b", "x\"y\\z\n\x01")] "json" (fun _ => "") =
      Except.ok (jsonStringify [("a", "1"), ("b", "x\"y\\z\n\x01")]) ∧
    parseJsonObj (jsonStringify [("a", "1"), ("b", "x\"y\\z\n\x01")]) =
      some [("a", "1"), ("b", "x\"y\\z\n\x01")] :=
  ⟨by decide,
    (claim_C7 [("a", "1"), ("b", "x\"y\\z\n\x01")] (fun _ => "") (by decide)).1,
    (claim_C7 [("a", "1"), ("b", "x\"y\\z\n\x01")] (fun _ => "") (by decide)).2⟩

end EnvToJson
